import Mathlib

/-!
Shallow embedding of the prime-search core of `experiments-rs`
(`src/primes/core.rs` and `src/primes/naive.rs`).

Machine integers (`u64`, `u32`, `usize`) are modelled as `Nat`.  All
arithmetic in the source is exact at this level: the one place the source
widens to `u128` (`mod_exp`) keeps every intermediate product below
`2^128`, so the value computed is the exact natural-number value modelled
here.

Loops are modelled as recursive functions.  Every loop of the source
terminates on every reachable input except the factor-stripping loops of
`prime_factors` (`while n % i == 0 { ... n /= i; }`), which never exit
when `n == 0`.  That family of loops is therefore modelled with an
explicit iteration budget (`strip_fuel`); the callers supply a budget
that is proved sufficient whenever `n ≥ 1`, and `none` propagating out of
`prime_factors` models the source looping forever.
-/

set_option maxHeartbeats 1000000
set_option maxRecDepth 100000

/-- Trial-division loop of `is_prime` (`core.rs` lines 29–35):
`while i * i <= n { if n % i == 0 { return false; } i += 2; }` followed by
`true`.  Terminates for every `n` and `i` because `i` grows past `√n`. -/
def trial_div (n i : Nat) : Bool :=
  if i * i ≤ n then
    if n % i = 0 then false
    else trial_div n (i + 2)
  else true
termination_by n + 2 - i
decreasing_by
  rename_i h _
  have hi : i = 0 ∨ 1 ≤ i := by omega
  rcases hi with hi | hi
  · subst hi; omega
  · have hii : i ≤ i * i := Nat.le_mul_of_pos_left i hi
    omega

/-- `is_prime` (`core.rs` lines 17–38). -/
def is_prime (n : Nat) : Bool :=
  if n < 2 then false
  else if n = 2 then true
  else if n % 2 = 0 then false
  else trial_div n 3

/-- Divide-and-conquer divisor check used only to certify concrete
primality facts with a kernel-evaluable term: `true` guarantees that no
`lo + 2k` with `k < cnt` divides `n`.  Structurally recursive on a depth
budget so the recursion depth stays logarithmic in `cnt`. -/
def range_no_div : Nat → Nat → Nat → Nat → Bool
  | _, _, _, 0 => true
  | 0, _, _, _ + 1 => false
  | depth + 1, n, lo, cnt + 1 =>
    if cnt = 0 then decide (¬ n % lo = 0)
    else
      range_no_div depth n lo ((cnt + 1) / 2) &&
      range_no_div depth n (lo + 2 * ((cnt + 1) / 2)) (cnt + 1 - (cnt + 1) / 2)

/-- Square-and-multiply loop of `mod_exp` (`core.rs` lines 55–63).  The
source computes both products in `u128`; since `base`, `result` and
`modulus` are below `2^64` the products are below `2^128` and the values
are exact, as modelled here.  Terminates because `exp` halves. -/
def mod_exp_loop (modulus base exp result : Nat) : Nat :=
  if exp = 0 then result
  else
    mod_exp_loop modulus (base * base % modulus) (exp / 2)
      (if exp % 2 = 1 then result * base % modulus else result)
termination_by exp
decreasing_by
  rename_i h
  exact Nat.div_lt_self (by omega) (by omega)

/-- `mod_exp` (`core.rs` lines 51–65). -/
def mod_exp (base exp modulus : Nat) : Nat :=
  if modulus = 1 then 0
  else mod_exp_loop modulus (base % modulus) exp 1

/-- `is_ntt_friendly_prime` (`core.rs` lines 90–96). -/
def is_ntt_friendly_prime (q n : Nat) : Bool :=
  if q < 2 ∨ n < 1 then false
  else decide (q % (2 * n) = 1) && is_prime q

/-- One factor-stripping loop of `prime_factors` (`core.rs` lines
175–180 for `i = 2`, lines 185–191 for odd `i`):
`while n % i == 0 { if !factors.contains(&i) { factors.push(i); } n /= i; }`.
`fuel` bounds the number of loop-condition checks; `none` means the
budget was exhausted, which (for the budgets used below) happens exactly
when the source loop never exits, i.e. when `n = 0`. -/
def strip_fuel : Nat → Nat → Nat → List Nat → Option (List Nat × Nat)
  | 0, _, _, _ => none
  | fuel + 1, i, n, factors =>
    if n % i = 0 then
      strip_fuel fuel i (n / i)
        (if factors.contains i then factors else factors ++ [i])
    else some (factors, n)

/-- The stripping loop with the budget `n + 1`, which is sufficient
whenever `n ≥ 1` and `i ≥ 2` (each division shrinks `n`). -/
def strip (i n : Nat) (factors : List Nat) : Option (List Nat × Nat) :=
  strip_fuel (n + 1) i n factors

/-- A `some` result of the stripping loop never increases `n`. -/
theorem strip_fuel_snd_le :
    ∀ fuel i n factors factors' n',
      strip_fuel fuel i n factors = some (factors', n') → n' ≤ n := by
  intro fuel
  induction fuel with
  | zero => intro i n factors factors' n' h; simp [strip_fuel] at h
  | succ fuel ih =>
    intro i n factors factors' n' h
    rw [strip_fuel] at h
    by_cases hmod : n % i = 0
    · simp only [hmod, if_pos rfl] at h
      have := ih i (n / i) _ _ _ h
      exact le_trans this (Nat.div_le_self n i)
    · simp only [if_neg hmod] at h
      cases h
      exact le_rfl

/-- Outer odd-factor loop of `prime_factors` (`core.rs` lines 183–192):
`while i * i <= n { while n % i == 0 { ... } i += 2; }`.  The inner loop
is `strip`; a `none` from it is propagated. -/
def odd_fac (i n : Nat) (factors : List Nat) : Option (List Nat × Nat) :=
  if i * i ≤ n then
    match h : strip i n factors with
    | none => none
    | some (factors', n') => odd_fac (i + 2) n' factors'
  else some (factors, n)
termination_by n + 2 - i
decreasing_by
  rename_i hle
  have hsle : n' ≤ n := strip_fuel_snd_le _ _ _ _ _ _ h
  have hi : i = 0 ∨ 1 ≤ i := by omega
  rcases hi with hi | hi
  · subst hi; omega
  · have hii : i ≤ i * i := Nat.le_mul_of_pos_left i hi
    omega

/-- `prime_factors` (`core.rs` lines 171–200).  `none` models the source
looping forever (which happens exactly on input `0`). -/
def prime_factors (n : Nat) : Option (List Nat) :=
  match strip 2 n [] with
  | none => none
  | some (factors, n1) =>
    match odd_fac 3 n1 factors with
    | none => none
    | some (factors2, m) =>
      some (if 1 < m ∧ ¬ factors2.contains m then factors2 ++ [m] else factors2)

/-- Loop of `is_generator` over the prime factors of `phi`
(`core.rs` lines 156–160): return `false` on the first factor `f` with
`g^(phi/f) ≡ 1 (mod p)`, else `true`. -/
def gen_check (g p phi : Nat) : List Nat → Bool
  | [] => true
  | f :: rest =>
    if mod_exp g (phi / f) p = 1 then false
    else gen_check g p phi rest

/-- `is_generator` (`core.rs` lines 150–162).  At `p = 1` the source
computes `phi = 0` and loops forever inside `prime_factors(0)`; the
model returns `none` there.  The model is faithful only for `p ≥ 1`: at
`p = 0` the source's unsigned `p - 1` itself underflows (a panic in a
debug build, wraparound to `2^64 - 1` in release), while the `Nat`
subtraction here truncates to `0`; no theorem below relies on the
model's value at `p = 0`. -/
def is_generator (g p : Nat) : Option Bool :=
  match prime_factors (p - 1) with
  | none => none
  | some factors => some (gen_check g p (p - 1) factors)

/-- Generator scan of `find_primitive_root` (`core.rs` lines 130–135):
`for candidate in 2..q` with `remaining` counting the values left in the
range.  Returns `some none` when the range is exhausted (the source's
final `None`), `some (some ψ)` on success, and `none` if `is_generator`
loops forever (unreachable here since the caller guarantees `q ≥ 2`). -/
def root_scan (q phi two_n : Nat) : Nat → Nat → Option (Option Nat)
  | _, 0 => some none
  | candidate, remaining + 1 =>
    match is_generator candidate q with
    | none => none
    | some true => some (some (mod_exp candidate (phi / two_n) q))
    | some false => root_scan q phi two_n (candidate + 1) remaining

/-- `find_primitive_root` (`core.rs` lines 121–137).  The outer `Option`
models nontermination (it is proved below that it is never `none`); the
inner `Option` is the source's return value. -/
def find_primitive_root (q n : Nat) : Option (Option Nat) :=
  if is_ntt_friendly_prime q n = true then
    root_scan q (q - 1) (2 * n) 2 (q - 2)
  else some none

/-- Downward-search loop of `get_first_prime_down` (`naive.rs` lines
40–45): `while candidate > 1 { if is_prime(candidate) { return ... }
candidate -= two_n; }` followed by `None`.  The `two_n = 0` branch is
unreachable from `get_first_prime_down` (its guard forces
`two_n = 2 * n ≥ 2`); it is present only to make the recursion
well-founded. -/
def first_prime_loop (two_n candidate : Nat) : Option Nat :=
  if 1 < candidate then
    if is_prime candidate then some candidate
    else if two_n = 0 then none
    else first_prime_loop two_n (candidate - two_n)
  else none
termination_by candidate
decreasing_by omega

/-- `get_first_prime_down` (`naive.rs` lines 25–48).  `1u64 << logq` is
`1 <<< logq`. -/
def get_first_prime_down (logq n : Nat) : Option Nat :=
  if logq < 2 ∨ n < 1 then none
  else
    let two_n := 2 * n
    let target_bits := 1 <<< logq
    let c0 := target_bits - target_bits % two_n + 1
    let candidate := if target_bits < c0 then c0 - two_n else c0
    first_prime_loop two_n candidate

/-- Collection loop of `get_primes_down` (`naive.rs` lines 81–86):
`while primes.len() < count && candidate > 1 { if is_prime(candidate)
{ primes.push(candidate); } candidate -= two_n; }`.  As in
`first_prime_loop`, the `two_n = 0` branch is unreachable from
`get_primes_down`. -/
def primes_loop (two_n count : Nat) (primes : List Nat) (candidate : Nat) :
    List Nat :=
  if primes.length < count ∧ 1 < candidate then
    let primes' := if is_prime candidate then primes ++ [candidate] else primes
    if two_n = 0 then primes'
    else primes_loop two_n count primes' (candidate - two_n)
  else primes
termination_by candidate
decreasing_by omega

/-- `get_primes_down` (`naive.rs` lines 72–90). -/
def get_primes_down (logq n count : Nat) : List Nat :=
  match get_first_prime_down logq n with
  | none => []
  | some first_prime =>
    primes_loop (2 * n) count [first_prime] (first_prime - 2 * n)

/-! ### Correctness of the trial-division primality test -/

/-- Characterization of the trial-division loop: starting from an odd
`i ≥ 3`, it returns `true` iff no odd `m ≥ i` with `m * m ≤ n` divides
`n`. -/
theorem trial_div_eq_true_iff (n : Nat) :
    ∀ i, 3 ≤ i → i % 2 = 1 →
      (trial_div n i = true ↔
        ∀ m, i ≤ m → m % 2 = 1 → m * m ≤ n → ¬ m ∣ n) := by
  intro i
  induction i using trial_div.induct n with
  | case1 x hle hmod =>
    intro h3 _hodd
    rw [trial_div, if_pos hle, if_pos hmod]
    simp only [Bool.false_eq_true, false_iff]
    intro hall
    exact hall x le_rfl _hodd hle (Nat.dvd_of_mod_eq_zero hmod)
  | case2 x hle hmod ih =>
    intro h3 hodd
    rw [trial_div, if_pos hle, if_neg hmod]
    rw [ih (by omega) (by omega)]
    constructor
    · intro h m hm hmodd hmle hdvd
      rcases Nat.lt_or_ge m (x + 2) with hlt | hge
      · have hx : m = x ∨ m = x + 1 := by omega
        rcases hx with he | he
        · subst he
          exact hmod (Nat.mod_eq_zero_of_dvd hdvd)
        · omega
      · exact h m hge hmodd hmle hdvd
    · intro h m hm hmodd hmle
      exact h m (by omega) hmodd hmle
  | case3 x hle =>
    intro _h3 _hodd
    rw [trial_div, if_neg hle]
    simp only [true_iff]
    intro m hm _hmodd hmle
    exfalso
    exact hle (le_trans (Nat.mul_le_mul hm hm) hmle)

/-- `is_prime` agrees with mathematical primality on every input. -/
theorem is_prime_iff (n : Nat) : is_prime n = true ↔ Nat.Prime n := by
  unfold is_prime
  by_cases h2 : n < 2
  · rw [if_pos h2]
    simp only [Bool.false_eq_true, false_iff]
    intro hp
    exact absurd hp.two_le (by omega)
  · rw [if_neg h2]
    by_cases he : n = 2
    · subst he
      simp [Nat.prime_two]
    · rw [if_neg he]
      by_cases hev : n % 2 = 0
      · rw [if_pos hev]
        simp only [Bool.false_eq_true, false_iff]
        intro hp
        rcases hp.eq_one_or_self_of_dvd 2 (Nat.dvd_of_mod_eq_zero hev) with h | h
        · omega
        · omega
      · rw [if_neg hev]
        rw [trial_div_eq_true_iff n 3 (by omega) (by omega)]
        constructor
        · intro h
          rw [Nat.prime_def_le_sqrt]
          refine ⟨by omega, ?_⟩
          intro m hm2 hmsqrt hdvd
          rw [Nat.le_sqrt] at hmsqrt
          have hmodd : m % 2 = 1 := by
            rcases Nat.mod_two_eq_zero_or_one m with h0 | h1
            · exfalso
              have h2m : 2 ∣ m := Nat.dvd_of_mod_eq_zero h0
              have h2n : 2 ∣ n := dvd_trans h2m hdvd
              exact hev (Nat.mod_eq_zero_of_dvd h2n)
            · exact h1
          exact h m (by omega) hmodd hmsqrt hdvd
        · intro hp m hm3 _hmodd hmle hdvd
          rcases hp.eq_one_or_self_of_dvd m hdvd with h1 | hn
          · omega
          · subst hn
            have : m * 3 ≤ m * m := Nat.mul_le_mul_left m hm3
            omega

/-- Helper: conclude `is_prime n = false` from non-primality. -/
theorem is_prime_false_of {n : Nat} (h : ¬ Nat.Prime n) : is_prime n = false := by
  rcases Bool.eq_false_or_eq_true (is_prime n) with ht | hf
  · exact absurd ((is_prime_iff n).1 ht) h
  · exact hf

/-- Helper: conclude `is_prime n = true` from primality. -/
theorem is_prime_true_of {n : Nat} (h : Nat.Prime n) : is_prime n = true :=
  (is_prime_iff n).2 h

/-! ### Correctness of modular exponentiation -/

/-- Loop invariant of `mod_exp_loop`: with reduced arguments it computes
`r * b ^ e mod m`. -/
theorem mod_exp_loop_eq (m : Nat) (hm : 2 ≤ m) :
    ∀ e b r, b < m → r < m → mod_exp_loop m b e r = r * b ^ e % m := by
  intro e
  induction e using Nat.strong_induction_on with
  | _ e ih =>
    intro b r hb hr
    rw [mod_exp_loop]
    by_cases he : e = 0
    · subst he
      simp [Nat.mod_eq_of_lt hr]
    · rw [if_neg he]
      have hlt : e / 2 < e := Nat.div_lt_self (by omega) (by omega)
      have hb2 : b * b % m < m := Nat.mod_lt _ (by omega)
      have hsplit : e = 2 * (e / 2) + e % 2 := by omega
      by_cases hpar : e % 2 = 1
      · rw [if_pos hpar]
        have hr2 : r * b % m < m := Nat.mod_lt _ (by omega)
        rw [ih (e / 2) hlt _ _ hb2 hr2]
        have hcong : (r * b % m) * ((b * b % m) ^ (e / 2)) ≡
            (r * b) * ((b * b) ^ (e / 2)) [MOD m] :=
          (Nat.mod_modEq (r * b) m).mul ((Nat.mod_modEq (b * b) m).pow _)
        have hval : (r * b) * ((b * b) ^ (e / 2)) = r * b ^ e := by
          conv_rhs => rw [hsplit, hpar]
          rw [pow_succ, pow_mul]
          ring
        calc (r * b % m) * ((b * b % m) ^ (e / 2)) % m
            = (r * b) * ((b * b) ^ (e / 2)) % m := hcong
          _ = r * b ^ e % m := by rw [hval]
      · rw [if_neg hpar]
        rw [ih (e / 2) hlt _ _ hb2 hr]
        have hcong : r * ((b * b % m) ^ (e / 2)) ≡
            r * ((b * b) ^ (e / 2)) [MOD m] :=
          ((Nat.mod_modEq (b * b) m).pow _).mul_left r
        have hval : r * ((b * b) ^ (e / 2)) = r * b ^ e := by
          have h0 : e % 2 = 0 := by omega
          conv_rhs => rw [hsplit, h0]
          rw [Nat.add_zero, pow_mul]
          ring
        calc r * ((b * b % m) ^ (e / 2)) % m
            = r * ((b * b) ^ (e / 2)) % m := hcong
          _ = r * b ^ e % m := by rw [hval]

/-- `mod_exp` computes `base ^ exp mod modulus` for every positive
modulus. -/
theorem mod_exp_eq (b e m : Nat) (hm : 1 ≤ m) : mod_exp b e m = b ^ e % m := by
  by_cases h1 : m = 1
  · subst h1
    simp [mod_exp, Nat.mod_one]
  · unfold mod_exp
    rw [if_neg h1,
      mod_exp_loop_eq m (by omega) e (b % m) 1 (Nat.mod_lt _ (by omega)) (by omega),
      one_mul, ← Nat.pow_mod]

/-! ### Claims C6, C7, C8 -/

/-- C7: `is_prime(n)` returns false for `n < 2`, true for `n == 2`, false
for even `n > 2`, and otherwise returns true iff no odd `i ≥ 3` with
`i*i ≤ n` divides `n`; equivalently, `is_prime n` is true iff `n` is
prime. -/
theorem claim_C7_is_prime (n : Nat) :
    (n < 2 → is_prime n = false) ∧
    (is_prime 2 = true) ∧
    (2 < n → n % 2 = 0 → is_prime n = false) ∧
    (2 < n → n % 2 = 1 →
      (is_prime n = true ↔ ∀ i, 3 ≤ i → i % 2 = 1 → i * i ≤ n → ¬ i ∣ n)) ∧
    (is_prime n = true ↔ Nat.Prime n) := by
  refine ⟨?_, rfl, ?_, ?_, is_prime_iff n⟩
  · intro h
    unfold is_prime
    rw [if_pos h]
  · intro h2 hev
    unfold is_prime
    rw [if_neg (by omega), if_neg (by omega), if_pos hev]
  · intro h2 hodd
    unfold is_prime
    rw [if_neg (by omega), if_neg (by omega), if_neg (by omega)]
    exact trial_div_eq_true_iff n 3 (by omega) (by omega)

/-- Witness for C7 at concrete inputs. -/
theorem claim_C7_is_prime_witness :
    is_prime 1 = false ∧ is_prime 2 = true ∧ is_prime 4 = false ∧
      (is_prime 9 = true ↔ ∀ i, 3 ≤ i → i % 2 = 1 → i * i ≤ 9 → ¬ i ∣ 9) :=
  ⟨(claim_C7_is_prime 1).1 (by decide), (claim_C7_is_prime 2).2.1,
   (claim_C7_is_prime 4).2.2.1 (by decide) (by decide),
   (claim_C7_is_prime 9).2.2.2.1 (by decide) (by decide)⟩

/-- C6: `mod_exp(base, exp, modulus)` equals `base ^ exp mod modulus` for
every modulus ≥ 1; `mod_exp(base, exp, 1) = 0`; and
`mod_exp(base, 0, modulus) = 1` for every modulus ≥ 2. -/
theorem claim_C6_mod_exp (b e m : Nat) :
    (1 ≤ m → mod_exp b e m = b ^ e % m) ∧
    (mod_exp b e 1 = 0) ∧
    (2 ≤ m → mod_exp b 0 m = 1) := by
  refine ⟨fun hm => mod_exp_eq b e m hm, rfl, ?_⟩
  intro hm
  rw [mod_exp_eq b 0 m (by omega), pow_zero, Nat.mod_eq_of_lt (by omega)]

/-- Witness for C6 at concrete inputs. -/
theorem claim_C6_mod_exp_witness :
    mod_exp 3 5 7 = 3 ^ 5 % 7 ∧ mod_exp 3 5 1 = 0 ∧ mod_exp 3 0 7 = 1 :=
  ⟨(claim_C6_mod_exp 3 5 7).1 (by decide), (claim_C6_mod_exp 3 5 1).2.1,
   (claim_C6_mod_exp 3 0 7).2.2 (by decide)⟩

/-- C8: `is_ntt_friendly_prime(q, n)` is false when `q < 2` or `n < 1`,
and otherwise true iff `q mod 2n == 1` and `is_prime q` holds. -/
theorem claim_C8_is_ntt_friendly_prime (q n : Nat) :
    (q < 2 ∨ n < 1 → is_ntt_friendly_prime q n = false) ∧
    (2 ≤ q → 1 ≤ n →
      (is_ntt_friendly_prime q n = true ↔
        q % (2 * n) = 1 ∧ is_prime q = true)) := by
  constructor
  · intro h
    unfold is_ntt_friendly_prime
    rw [if_pos h]
  · intro hq hn
    unfold is_ntt_friendly_prime
    rw [if_neg (by omega)]
    simp only [Bool.and_eq_true, decide_eq_true_eq]

/-- Witness for C8 at concrete inputs. -/
theorem claim_C8_is_ntt_friendly_prime_witness :
    is_ntt_friendly_prime 1 5 = false ∧
      (is_ntt_friendly_prime 3 1 = true ↔
        3 % (2 * 1) = 1 ∧ is_prime 3 = true) :=
  ⟨(claim_C8_is_ntt_friendly_prime 1 5).1 (Or.inl (by decide)),
   (claim_C8_is_ntt_friendly_prime 3 1).2 (by decide) (by decide)⟩

/-! ### The downward search loop -/

/-- If two numbers share a residue class mod `m` and are distinct, they
are at least `m` apart. -/
theorem mod_eq_spacing {m a b : Nat} (hm : a % m = b % m) (hab : a < b) :
    a + m ≤ b := by
  rcases Nat.eq_zero_or_pos m with h0 | hpos
  · subst h0
    simp [Nat.mod_zero] at hm
    omega
  · have hd : m ∣ b - a := (Nat.modEq_iff_dvd' (le_of_lt hab)).1 hm
    have := Nat.le_of_dvd (by omega) hd
    omega

/-- Step lemma for the downward search: a composite candidate is
skipped. -/
theorem first_prime_loop_step {two_n c : Nat} (h0 : two_n ≠ 0) (hc : 1 < c)
    (hp : is_prime c = false) :
    first_prime_loop two_n c = first_prime_loop two_n (c - two_n) := by
  rw [first_prime_loop, if_pos hc, if_neg (by simp [hp]), if_neg h0]

/-- Step lemma for the downward search: a prime candidate is returned. -/
theorem first_prime_loop_found {two_n c : Nat} (hc : 1 < c)
    (hp : is_prime c = true) :
    first_prime_loop two_n c = some c := by
  rw [first_prime_loop, if_pos hc, if_pos hp]

/-- Specification of the downward search loop: a returned value is the
largest prime `≤ candidate` in the candidate's residue class mod
`two_n`. -/
theorem first_prime_loop_spec (two_n : Nat) (h2 : 1 ≤ two_n) :
    ∀ c p, first_prime_loop two_n c = some p →
      Nat.Prime p ∧ p ≤ c ∧ p % two_n = c % two_n ∧
        ∀ x, p < x → x ≤ c → x % two_n = c % two_n → ¬ Nat.Prime x := by
  intro c
  induction c using Nat.strong_induction_on with
  | _ c ih =>
    intro p hp
    rw [first_prime_loop] at hp
    by_cases hc : 1 < c
    · rw [if_pos hc] at hp
      by_cases hpr : is_prime c = true
      · rw [if_pos hpr] at hp
        cases hp
        refine ⟨(is_prime_iff c).1 hpr, le_rfl, rfl, ?_⟩
        intro x hx1 hx2 _ _
        omega
      · rw [if_neg hpr, if_neg (by omega : ¬ two_n = 0)] at hp
        have hlt : c - two_n < c := by omega
        obtain ⟨hq, hle, hmod, hmax⟩ := ih (c - two_n) hlt p hp
        have hcg : 1 < c - two_n := by
          by_contra hno
          rw [first_prime_loop, if_neg hno] at hp
          exact absurd hp (by simp)
        have hmodeq : (c - two_n) % two_n = c % two_n := by
          conv_rhs => rw [show c = (c - two_n) + two_n by omega]
          rw [Nat.add_mod_right]
        refine ⟨hq, by omega, by rw [hmod, hmodeq], ?_⟩
        intro x hpx hxc hxmod
        rcases Nat.lt_or_ge (c - two_n) x with hgt | hle2
        · have hxeq : x = c := by
            by_cases hxc2 : x < c
            · have := mod_eq_spacing hxmod hxc2
              omega
            · omega
          subst hxeq
          intro hxp
          exact hpr (is_prime_true_of hxp)
        · exact hmax x hpx hle2 (by rw [hxmod, hmodeq])
    · rw [if_neg hc] at hp
      exact absurd hp (by simp)
/-- Soundness of the divide-and-conquer divisor check. -/
theorem range_no_div_sound :
    ∀ depth n lo cnt, range_no_div depth n lo cnt = true →
      ∀ k, k < cnt → n % (lo + 2 * k) ≠ 0 := by
  intro depth
  induction depth with
  | zero =>
    intro n lo cnt h k hk
    cases cnt with
    | zero => omega
    | succ c => exact absurd h (by simp [range_no_div])
  | succ depth ih =>
    intro n lo cnt h k hk
    cases cnt with
    | zero => omega
    | succ c =>
      rw [range_no_div] at h
      by_cases hc : c = 0
      · subst hc
        rw [if_pos rfl] at h
        have hk0 : k = 0 := by omega
        subst hk0
        simp only [decide_eq_true_eq] at h
        simpa using h
      · rw [if_neg hc] at h
        simp only [Bool.and_eq_true] at h
        obtain ⟨h1, h2⟩ := h
        by_cases hkh : k < (c + 1) / 2
        · exact ih n lo _ h1 k hkh
        · have hres := ih n (lo + 2 * ((c + 1) / 2)) _ h2
            (k - (c + 1) / 2) (by omega)
          have harith : lo + 2 * ((c + 1) / 2) + 2 * (k - (c + 1) / 2) =
              lo + 2 * k := by omega
          rw [harith] at hres
          exact hres

/-- `1073707009` passes the source's trial division: certified by the
kernel-evaluated divisor check over the odd range `3, 5, ..., 32767`. -/
theorem is_prime_1073707009 : is_prime 1073707009 = true := by
  unfold is_prime
  rw [if_neg (by norm_num), if_neg (by norm_num), if_neg (by norm_num)]
  rw [trial_div_eq_true_iff 1073707009 3 (by norm_num) (by norm_num)]
  intro m hm3 hmodd hmsq
  have hrange : range_no_div 40 1073707009 3 16383 = true := by decide
  have hsound := range_no_div_sound 40 1073707009 3 16383 hrange
  have hmlt : m < 3 + 2 * 16383 := by
    by_contra hge
    have h1 : 32769 ≤ m := by omega
    have h2 := Nat.mul_le_mul h1 h1
    omega
  have hk : m = 3 + 2 * ((m - 3) / 2) := by omega
  intro hdvd
  have hres := hsound ((m - 3) / 2) (by omega)
  rw [← hk] at hres
  exact hres (Nat.mod_eq_zero_of_dvd hdvd)

/-- Concrete evaluation: the downward search for `logq = 30`, `n = 1024`
tests 17 candidates and stops at `1073707009`. -/
theorem gfpd_30_1024 : get_first_prime_down 30 1024 = some 1073707009 := by
  have e0 : get_first_prime_down 30 1024 = first_prime_loop 2048 1073739777 := by
    unfold get_first_prime_down
    norm_num [Nat.shiftLeft_eq]
  have s0 : first_prime_loop 2048 1073739777 = first_prime_loop 2048 1073737729 := by
    rw [first_prime_loop_step (by omega) (by omega) (is_prime_false_of (by norm_num))]
  have s1 : first_prime_loop 2048 1073737729 = first_prime_loop 2048 1073735681 := by
    rw [first_prime_loop_step (by omega) (by omega) (is_prime_false_of (by norm_num))]
  have s2 : first_prime_loop 2048 1073735681 = first_prime_loop 2048 1073733633 := by
    rw [first_prime_loop_step (by omega) (by omega) (is_prime_false_of (by norm_num))]
  have s3 : first_prime_loop 2048 1073733633 = first_prime_loop 2048 1073731585 := by
    rw [first_prime_loop_step (by omega) (by omega) (is_prime_false_of (by norm_num))]
  have s4 : first_prime_loop 2048 1073731585 = first_prime_loop 2048 1073729537 := by
    rw [first_prime_loop_step (by omega) (by omega) (is_prime_false_of (by norm_num))]
  have s5 : first_prime_loop 2048 1073729537 = first_prime_loop 2048 1073727489 := by
    rw [first_prime_loop_step (by omega) (by omega) (is_prime_false_of (by norm_num))]
  have s6 : first_prime_loop 2048 1073727489 = first_prime_loop 2048 1073725441 := by
    rw [first_prime_loop_step (by omega) (by omega) (is_prime_false_of (by norm_num))]
  have s7 : first_prime_loop 2048 1073725441 = first_prime_loop 2048 1073723393 := by
    rw [first_prime_loop_step (by omega) (by omega) (is_prime_false_of (by norm_num))]
  have s8 : first_prime_loop 2048 1073723393 = first_prime_loop 2048 1073721345 := by
    rw [first_prime_loop_step (by omega) (by omega) (is_prime_false_of (by norm_num))]
  have s9 : first_prime_loop 2048 1073721345 = first_prime_loop 2048 1073719297 := by
    rw [first_prime_loop_step (by omega) (by omega) (is_prime_false_of (by norm_num))]
  have s10 : first_prime_loop 2048 1073719297 = first_prime_loop 2048 1073717249 := by
    rw [first_prime_loop_step (by omega) (by omega) (is_prime_false_of (by norm_num))]
  have s11 : first_prime_loop 2048 1073717249 = first_prime_loop 2048 1073715201 := by
    rw [first_prime_loop_step (by omega) (by omega) (is_prime_false_of (by norm_num))]
  have s12 : first_prime_loop 2048 1073715201 = first_prime_loop 2048 1073713153 := by
    rw [first_prime_loop_step (by omega) (by omega) (is_prime_false_of (by norm_num))]
  have s13 : first_prime_loop 2048 1073713153 = first_prime_loop 2048 1073711105 := by
    rw [first_prime_loop_step (by omega) (by omega) (is_prime_false_of (by norm_num))]
  have s14 : first_prime_loop 2048 1073711105 = first_prime_loop 2048 1073709057 := by
    rw [first_prime_loop_step (by omega) (by omega) (is_prime_false_of (by norm_num))]
  have s15 : first_prime_loop 2048 1073709057 = first_prime_loop 2048 1073707009 := by
    rw [first_prime_loop_step (by omega) (by omega) (is_prime_false_of (by norm_num))]
  have s16 : first_prime_loop 2048 1073707009 = some 1073707009 :=
    first_prime_loop_found (by omega) is_prime_1073707009
  rw [e0, s0, s1, s2, s3, s4, s5, s6, s7, s8, s9, s10, s11, s12, s13, s14, s15, s16]

/-- If `m ∣ c - 1` with `c ≥ 1 < m`, then `c % m = 1`. -/
theorem mod_eq_one_of {m c : Nat} (hm : 1 < m) (hc : 1 ≤ c) (h : m ∣ c - 1) :
    c % m = 1 := by
  obtain ⟨j, hj⟩ := h
  have hcj : c = m * j + 1 := by omega
  rw [hcj, Nat.mul_add_mod]
  exact Nat.mod_eq_of_lt hm

/-- A residue-1 candidate above 1 sits at least `m + 1`, so the source's
`candidate -= two_n` cannot underflow. -/
theorem mod_one_lower_bound {m c : Nat} (_hm : 2 ≤ m) (hc : 1 < c)
    (h : c % m = 1) : m + 1 ≤ c := by
  rcases Nat.lt_or_ge c m with hlt | hge
  · rw [Nat.mod_eq_of_lt hlt] at h
    omega
  · rcases Nat.eq_or_lt_of_le hge with he | hlt
    · rw [← he, Nat.mod_self] at h
      omega
    · omega

/-- `get_first_prime_down` on valid inputs runs the search loop on the
largest candidate `≤ 2^logq` congruent to `1 mod 2n`. -/
theorem gfpd_candidate (logq n : Nat) (hl : 2 ≤ logq) (hn : 1 ≤ n) :
    ∃ c, c % (2 * n) = 1 ∧ c ≤ 2 ^ logq ∧ 2 ^ logq < c + 2 * n ∧
      get_first_prime_down logq n = first_prime_loop (2 * n) c := by
  have hT4 : (4 : Nat) ≤ 2 ^ logq := by
    have h22 : (2 : Nat) ^ 2 ≤ 2 ^ logq := Nat.pow_le_pow_right (by omega) hl
    omega
  have h2n : 2 ≤ 2 * n := by omega
  have hrlt : 2 ^ logq % (2 * n) < 2 * n := Nat.mod_lt _ (by omega)
  have hrle : 2 ^ logq % (2 * n) ≤ 2 ^ logq := Nat.mod_le _ _
  have hdvd : 2 * n ∣ 2 ^ logq - 2 ^ logq % (2 * n) := Nat.dvd_sub_mod _
  unfold get_first_prime_down
  rw [if_neg (by omega)]
  simp only [Nat.shiftLeft_eq, one_mul]
  by_cases hr : 2 ^ logq % (2 * n) = 0
  · have hdvdT : 2 * n ∣ 2 ^ logq := by
      have := hdvd
      rw [hr, Nat.sub_zero] at this
      exact this
    have h2nle : 2 * n ≤ 2 ^ logq := Nat.le_of_dvd (by omega) hdvdT
    rw [if_pos (by omega)]
    refine ⟨2 ^ logq - 2 ^ logq % (2 * n) + 1 - 2 * n, ?_, by omega, by omega, rfl⟩
    have hd2 : 2 * n ∣ 2 ^ logq - 2 * n := Nat.dvd_sub' hdvdT dvd_rfl
    refine mod_eq_one_of (by omega) (by omega) ?_
    have he : 2 ^ logq - 2 ^ logq % (2 * n) + 1 - 2 * n - 1 = 2 ^ logq - 2 * n := by
      omega
    rw [he]
    exact hd2
  · rw [if_neg (by omega)]
    refine ⟨2 ^ logq - 2 ^ logq % (2 * n) + 1, ?_, by omega, by omega, rfl⟩
    refine mod_eq_one_of (by omega) (by omega) ?_
    have he : 2 ^ logq - 2 ^ logq % (2 * n) + 1 - 1 =
        2 ^ logq - 2 ^ logq % (2 * n) := by omega
    rw [he]
    exact hdvd

/-- Core specification transfer: running the loop on the largest
residue-1 candidate `≤ T` returns the largest residue-1 prime `≤ T`. -/
theorem gfpd_core {two_n C T p : Nat} (h2 : 2 ≤ two_n) (hCmod : C % two_n = 1)
    (hCle : C ≤ T) (hCmax : T < C + two_n)
    (h : first_prime_loop two_n C = some p) :
    Nat.Prime p ∧ p ≤ T ∧ p % two_n = 1 ∧
      ∀ x, p < x → x ≤ T → x % two_n = 1 → ¬ Nat.Prime x := by
  obtain ⟨hq, hle, hmod, hmax⟩ := first_prime_loop_spec two_n (by omega) C p h
  refine ⟨hq, by omega, by rw [hmod, hCmod], ?_⟩
  intro x hpx hxT hx1
  have hxle : x ≤ C := by
    by_contra hgt
    have := mod_eq_spacing (a := C) (b := x) (by rw [hCmod, hx1]) (by omega)
    omega
  exact hmax x hpx hxle (by rw [hx1, hCmod])

/-- Full specification of `get_first_prime_down` on valid inputs. -/
theorem get_first_prime_down_spec (logq n p : Nat) (hl : 2 ≤ logq)
    (hn : 1 ≤ n) (h : get_first_prime_down logq n = some p) :
    Nat.Prime p ∧ p ≤ 2 ^ logq ∧ p % (2 * n) = 1 ∧
      ∀ x, p < x → x ≤ 2 ^ logq → x % (2 * n) = 1 → ¬ Nat.Prime x := by
  obtain ⟨c, hcmod, hcle, hcmax, heq⟩ := gfpd_candidate logq n hl hn
  rw [heq] at h
  exact gfpd_core (by omega) hcmod hcle hcmax h

/-- Small concrete evaluation: `get_first_prime_down 3 1 = some 7`. -/
theorem gfpd_3_1 : get_first_prime_down 3 1 = some 7 := by
  have h7 : is_prime 7 = true := is_prime_true_of (by norm_num)
  have e0 : get_first_prime_down 3 1 = first_prime_loop 2 7 := by
    unfold get_first_prime_down
    norm_num [Nat.shiftLeft_eq]
  rw [e0, first_prime_loop_found (by omega) h7]

/-! ### Claims C1, C9, C10 -/

/-- C1: for `logq ≥ 2` and `n ≥ 1`, a returned prime is `≤ 2^logq`,
congruent to `1 mod 2n`, and no larger prime `≤ 2^logq` has that residue;
concretely, `get_first_prime_down 30 1024 = some 1073707009`. -/
theorem claim_C1_get_first_prime_down :
    (∀ logq n p, 2 ≤ logq → 1 ≤ n → get_first_prime_down logq n = some p →
      Nat.Prime p ∧ p ≤ 2 ^ logq ∧ p % (2 * n) = 1 ∧
        ∀ x, p < x → x ≤ 2 ^ logq → x % (2 * n) = 1 → ¬ Nat.Prime x) ∧
    get_first_prime_down 30 1024 = some 1073707009 :=
  ⟨fun logq n p hl hn h => get_first_prime_down_spec logq n p hl hn h,
   gfpd_30_1024⟩

/-- Witness for C1 at `logq = 3`, `n = 1`, `p = 7`. -/
theorem claim_C1_get_first_prime_down_witness :
    Nat.Prime 7 ∧ 7 ≤ 2 ^ 3 ∧ 7 % (2 * 1) = 1 := by
  have h := claim_C1_get_first_prime_down.1 3 1 7 (by decide) (by decide)
    gfpd_3_1
  exact ⟨h.1, h.2.1, h.2.2.1⟩

/-- C9: out-of-range business inputs give an empty result:
`get_first_prime_down` returns `none` when `logq < 2` or `n < 1`, and
`find_primitive_root` returns `None` whenever `is_ntt_friendly_prime` is
false (in the model no computation is even started on these inputs, the
guards return immediately). -/
theorem claim_C9_invalid_inputs (logq n q m : Nat) :
    (logq < 2 ∨ n < 1 → get_first_prime_down logq n = none) ∧
    get_first_prime_down 1 1024 = none ∧
    get_first_prime_down 30 0 = none ∧
    (is_ntt_friendly_prime q m = false → find_primitive_root q m = some none) := by
  refine ⟨?_, rfl, rfl, ?_⟩
  · intro h
    unfold get_first_prime_down
    rw [if_pos h]
  · intro h
    unfold find_primitive_root
    rw [h]
    simp

/-- Witness for C9 at concrete inputs. -/
theorem claim_C9_invalid_inputs_witness :
    get_first_prime_down 1 5 = none ∧ find_primitive_root 4 1 = some none :=
  ⟨(claim_C9_invalid_inputs 1 5 4 1).1 (Or.inl (by decide)),
   (claim_C9_invalid_inputs 1 5 4 1).2.2.2 (by rfl)⟩

/-- C10: every candidate handed to the downward-search loops is congruent
to `1 mod 2n`; stepping preserves that residue; and whenever a loop body
runs with `candidate > 1` the candidate is at least `2n + 1`, so the
source's `candidate -= two_n` cannot underflow. -/
theorem claim_C10_candidates_residue :
    (∀ logq n, 2 ≤ logq → 1 ≤ n →
      ∃ c, c % (2 * n) = 1 ∧
        get_first_prime_down logq n = first_prime_loop (2 * n) c) ∧
    (∀ two_n c, 2 ≤ two_n → c % two_n = 1 → 1 < c →
      two_n + 1 ≤ c ∧ (c - two_n) % two_n = 1 ∧
        first_prime_loop two_n c =
          (if is_prime c then some c else first_prime_loop two_n (c - two_n))) ∧
    (∀ two_n count (acc : List Nat) c, 2 ≤ two_n → c % two_n = 1 → 1 < c →
      acc.length < count →
      two_n + 1 ≤ c ∧ (c - two_n) % two_n = 1 ∧
        primes_loop two_n count acc c =
          primes_loop two_n count (if is_prime c then acc ++ [c] else acc)
            (c - two_n)) ∧
    (∀ logq n p, 1 ≤ n → get_first_prime_down logq n = some p →
      p % (2 * n) = 1 ∧ 2 * n + 1 ≤ p) := by
  have hstep : ∀ two_n c, 2 ≤ two_n → c % two_n = 1 → 1 < c →
      two_n + 1 ≤ c ∧ (c - two_n) % two_n = 1 := by
    intro two_n c h2 hc hgt
    have hlow := mod_one_lower_bound h2 hgt hc
    refine ⟨hlow, ?_⟩
    have hadd := Nat.add_mod_right (c - two_n) two_n
    rw [show c - two_n + two_n = c by omega] at hadd
    rw [← hadd]
    exact hc
  refine ⟨?_, ?_, ?_, ?_⟩
  · intro logq n hl hn
    obtain ⟨c, h1, _, _, h4⟩ := gfpd_candidate logq n hl hn
    exact ⟨c, h1, h4⟩
  · intro two_n c h2 hc hgt
    obtain ⟨hlow, hmod2⟩ := hstep two_n c h2 hc hgt
    refine ⟨hlow, hmod2, ?_⟩
    rw [first_prime_loop, if_pos hgt]
    by_cases hp : is_prime c = true
    · rw [if_pos hp, if_pos hp]
    · rw [if_neg hp, if_neg hp, if_neg (show ¬ two_n = 0 by omega)]
  · intro two_n count acc c h2 hc hgt hlen
    obtain ⟨hlow, hmod2⟩ := hstep two_n c h2 hc hgt
    refine ⟨hlow, hmod2, ?_⟩
    rw [primes_loop, if_pos (⟨hlen, hgt⟩ : acc.length < count ∧ 1 < c)]
    simp only [if_neg (show ¬ two_n = 0 by omega)]
  · intro logq n p hn h
    have hguard : ¬ (logq < 2 ∨ n < 1) := by
      intro hg
      unfold get_first_prime_down at h
      rw [if_pos hg] at h
      exact absurd h (by simp)
    obtain ⟨hq, _, hmod, _⟩ :=
      get_first_prime_down_spec logq n p (by omega) (by omega) h
    have hp2 := hq.two_le
    exact ⟨hmod, mod_one_lower_bound (by omega) (by omega) hmod⟩

/-- Witness for C10 at concrete inputs. -/
theorem claim_C10_candidates_residue_witness :
    (∃ c, c % (2 * 1) = 1 ∧
      get_first_prime_down 3 1 = first_prime_loop (2 * 1) c) ∧
    (2 + 1 ≤ 9 ∧ (9 - 2) % 2 = 1 ∧
      first_prime_loop 2 9 =
        (if is_prime 9 then some 9 else first_prime_loop 2 (9 - 2))) ∧
    (2 + 1 ≤ 9 ∧ (9 - 2) % 2 = 1 ∧
      primes_loop 2 1 [] 9 =
        primes_loop 2 1 (if is_prime 9 then [] ++ [9] else []) (9 - 2)) ∧
    (7 % (2 * 1) = 1 ∧ 2 * 1 + 1 ≤ 7) :=
  ⟨claim_C10_candidates_residue.1 3 1 (by decide) (by decide),
   claim_C10_candidates_residue.2.1 2 9 (by decide) (by decide) (by decide),
   claim_C10_candidates_residue.2.2.1 2 1 [] 9 (by decide) (by decide)
     (by decide) (by decide),
   claim_C10_candidates_residue.2.2.2 3 1 7 (by decide) gfpd_3_1⟩

/-! ### The multi-prime collection loop -/

/-- Invariant of `primes_loop`: starting from a strictly descending
accumulator whose entries all exceed the (residue-1) candidate, the
result is strictly descending, has length at most
`max count acc.length`, and every entry is either from the accumulator
or a residue-1 prime `≤ c`. -/
theorem primes_loop_spec (two_n count : Nat) (h2 : 2 ≤ two_n) :
    ∀ c acc, c % two_n = 1 → (∀ y ∈ acc, c < y) →
      List.Chain' (· > ·) acc →
      List.Chain' (· > ·) (primes_loop two_n count acc c) ∧
      (primes_loop two_n count acc c).length ≤ max count acc.length ∧
      ∀ x ∈ primes_loop two_n count acc c,
        x ∈ acc ∨ (is_prime x = true ∧ x ≤ c ∧ x % two_n = 1) := by
  intro c
  induction c using Nat.strong_induction_on with
  | _ c ih =>
    intro acc hc hacc hchain
    by_cases hcond : acc.length < count ∧ 1 < c
    · rw [primes_loop, if_pos hcond]
      simp only [if_neg (show ¬ two_n = 0 by omega)]
      have hlow : two_n + 1 ≤ c := mod_one_lower_bound h2 hcond.2 hc
      have hmod2 : (c - two_n) % two_n = 1 := by
        have hadd := Nat.add_mod_right (c - two_n) two_n
        rw [show c - two_n + two_n = c by omega] at hadd
        rw [← hadd]
        exact hc
      have hlt : c - two_n < c := by omega
      by_cases hp : is_prime c = true
      · rw [if_pos hp]
        have hacc2 : ∀ y ∈ acc ++ [c], c - two_n < y := by
          intro y hy
          rcases List.mem_append.1 hy with hy | hy
          · have := hacc y hy; omega
          · simp at hy; omega
        have hchain2 : List.Chain' (· > ·) (acc ++ [c]) := by
          rw [List.chain'_append]
          refine ⟨hchain, List.chain'_singleton c, ?_⟩
          intro x hx y hy
          simp only [List.head?_cons, Option.mem_some_iff] at hy
          subst hy
          exact hacc x (List.mem_of_mem_getLast? hx)
        obtain ⟨r1, r2, r3⟩ := ih (c - two_n) hlt (acc ++ [c]) hmod2 hacc2 hchain2
        refine ⟨r1, ?_, ?_⟩
        · simp only [List.length_append, List.length_cons, List.length_nil] at r2
          omega
        · intro x hx
          rcases r3 x hx with hin | hnew
          · rcases List.mem_append.1 hin with h | h
            · exact Or.inl h
            · simp only [List.mem_singleton] at h
              subst h
              exact Or.inr ⟨hp, le_rfl, hc⟩
          · exact Or.inr ⟨hnew.1, by omega, hnew.2.2⟩
      · rw [if_neg hp]
        obtain ⟨r1, r2, r3⟩ := ih (c - two_n) hlt acc hmod2
          (fun y hy => by have := hacc y hy; omega) hchain
        refine ⟨r1, r2, ?_⟩
        intro x hx
        rcases r3 x hx with h | h
        · exact Or.inl h
        · exact Or.inr ⟨h.1, by omega, h.2.2⟩
    · rw [primes_loop, if_neg hcond]
      exact ⟨hchain, Nat.le_max_right _ _, fun x hx => Or.inl hx⟩

/-! ### Claim C2 -/

/-- C2 (amended): the returned sequence is strictly descending, every
element is a prime `≤ 2^logq` congruent to `1 mod 2n`, and its length is
at most `count` provided `count ≥ 1` (in general at most
`max count 1`: for `count = 0` the source still pushes the seed prime
before checking the bound). -/
theorem claim_C2_get_primes_down (logq n count : Nat) :
    List.Chain' (· > ·) (get_primes_down logq n count) ∧
    (get_primes_down logq n count).length ≤ max count 1 ∧
    (1 ≤ count → (get_primes_down logq n count).length ≤ count) ∧
    ∀ p ∈ get_primes_down logq n count,
      Nat.Prime p ∧ p ≤ 2 ^ logq ∧ p % (2 * n) = 1 := by
  cases h : get_first_prime_down logq n with
  | none =>
    have hunf : get_primes_down logq n count = [] := by
      unfold get_primes_down
      rw [h]
    simp [hunf]
  | some fp =>
    have hunf : get_primes_down logq n count =
        primes_loop (2 * n) count [fp] (fp - 2 * n) := by
      unfold get_primes_down
      rw [h]
    rw [hunf]
    have hguard : ¬ (logq < 2 ∨ n < 1) := by
      intro hg
      unfold get_first_prime_down at h
      rw [if_pos hg] at h
      exact absurd h (by simp)
    obtain ⟨hfq, hfle, hfmod, _⟩ :=
      get_first_prime_down_spec logq n fp (by omega) (by omega) h
    have hf2 := hfq.two_le
    have hlow : 2 * n + 1 ≤ fp :=
      mod_one_lower_bound (by omega) (by omega) hfmod
    have hmod2 : (fp - 2 * n) % (2 * n) = 1 := by
      have hadd := Nat.add_mod_right (fp - 2 * n) (2 * n)
      rw [show fp - 2 * n + 2 * n = fp by omega] at hadd
      rw [← hadd]
      exact hfmod
    obtain ⟨r1, r2, r3⟩ := primes_loop_spec (2 * n) count (by omega)
      (fp - 2 * n) [fp] hmod2
      (by intro y hy; simp only [List.mem_singleton] at hy; omega)
      (List.chain'_singleton fp)
    refine ⟨r1, ?_, ?_, ?_⟩
    · simpa using r2
    · intro hcnt
      simp only [List.length_singleton] at r2
      omega
    · intro p hp
      rcases r3 p hp with hin | hnew
      · simp only [List.mem_singleton] at hin
        subst hin
        exact ⟨hfq, hfle, hfmod⟩
      · exact ⟨(is_prime_iff p).1 hnew.1, by omega, hnew.2.2⟩

/-- Concrete evaluation: `get_primes_down 3 1 2 = [7, 5]`. -/
theorem gpd_3_1_2 : get_primes_down 3 1 2 = [7, 5] := by
  have h5 : is_prime 5 = true := is_prime_true_of (by norm_num)
  unfold get_primes_down
  rw [gfpd_3_1]
  show primes_loop 2 2 [7] 5 = [7, 5]
  rw [primes_loop, if_pos (by norm_num : ([7] : List Nat).length < 2 ∧ 1 < 5)]
  simp only [h5, if_true, if_neg (show ¬ (2 : Nat) = 0 by norm_num)]
  show primes_loop 2 2 [7, 5] 3 = [7, 5]
  rw [primes_loop, if_neg (by norm_num)]

/-- Counterexample to C2 as stated: with `count = 0` the result still
contains the seed prime, so its length exceeds `count`. -/
theorem claim_C2_counterexample : ¬ ((get_primes_down 3 1 0).length ≤ 0) := by
  have h : get_primes_down 3 1 0 = [7] := by
    unfold get_primes_down
    rw [gfpd_3_1]
    show primes_loop 2 0 [7] 5 = [7]
    rw [primes_loop, if_neg (by norm_num)]
  rw [h]
  simp

/-- Witness for C2 (amended) at concrete inputs. -/
theorem claim_C2_get_primes_down_witness :
    (get_primes_down 3 1 2).length ≤ 2 ∧
      (Nat.Prime 7 ∧ 7 ≤ 2 ^ 3 ∧ 7 % (2 * 1) = 1) :=
  ⟨(claim_C2_get_primes_down 3 1 2).2.2.1 (by decide),
   (claim_C2_get_primes_down 3 1 2).2.2.2 7 (by rw [gpd_3_1_2]; simp)⟩

/-! ### The factor-stripping loop -/

/-- The stripping loop never exits on `n = 0`, whatever the budget: this
is the source's nonterminating `while 0 % i == 0` loop. -/
theorem strip_fuel_zero_none :
    ∀ fuel i factors, strip_fuel fuel i 0 factors = none := by
  intro fuel
  induction fuel with
  | zero => intro i factors; rfl
  | succ fuel ih =>
    intro i factors
    rw [strip_fuel, if_pos (Nat.zero_mod i), Nat.zero_div]
    exact ih i _

/-- The source's factor-2 stripping loop (`core.rs` lines 175–180) runs
forever on input `n`: no iteration budget makes it exit. -/
def strip_loop_stuck (n : Nat) : Prop :=
  ∀ fuel factors, strip_fuel fuel 2 n factors = none

/-- With budget larger than `n ≥ 1` and `i ≥ 2`, the stripping loop
exits. -/
theorem strip_fuel_some :
    ∀ fuel n i factors, n < fuel → 1 ≤ n → 2 ≤ i →
      ∃ r, strip_fuel fuel i n factors = some r := by
  intro fuel
  induction fuel with
  | zero => intro n i factors h; omega
  | succ fuel ih =>
    intro n i factors hlt hn hi
    rw [strip_fuel]
    by_cases hmod : n % i = 0
    · rw [if_pos hmod]
      have hdvd : i ∣ n := Nat.dvd_of_mod_eq_zero hmod
      have hge : i ≤ n := Nat.le_of_dvd (by omega) hdvd
      have hq1 : 1 ≤ n / i := Nat.div_pos hge (by omega)
      have hqlt : n / i < n := Nat.div_lt_self (by omega) (by omega)
      exact ih (n / i) i _ (by omega) hq1 hi
    · rw [if_neg hmod]
      exact ⟨(factors, n), rfl⟩

/-- The stripping loop exits with a cofactor not divisible by `i`. -/
theorem strip_fuel_not_dvd :
    ∀ fuel i n factors factors' n',
      strip_fuel fuel i n factors = some (factors', n') → ¬ i ∣ n' := by
  intro fuel
  induction fuel with
  | zero => intro i n factors factors' n' h; exact absurd h (by simp [strip_fuel])
  | succ fuel ih =>
    intro i n factors factors' n' h
    rw [strip_fuel] at h
    by_cases hmod : n % i = 0
    · rw [if_pos hmod] at h
      exact ih i (n / i) _ _ _ h
    · rw [if_neg hmod] at h
      cases h
      intro hd
      exact hmod (Nat.mod_eq_zero_of_dvd hd)

/-- The stripping loop divides out a power of `i`. -/
theorem strip_fuel_pow :
    ∀ fuel i n factors factors' n',
      strip_fuel fuel i n factors = some (factors', n') →
        ∃ k, n = i ^ k * n' := by
  intro fuel
  induction fuel with
  | zero => intro i n factors factors' n' h; exact absurd h (by simp [strip_fuel])
  | succ fuel ih =>
    intro i n factors factors' n' h
    rw [strip_fuel] at h
    by_cases hmod : n % i = 0
    · rw [if_pos hmod] at h
      obtain ⟨k, hk⟩ := ih i (n / i) _ _ _ h
      refine ⟨k + 1, ?_⟩
      have hdvd : i ∣ n := Nat.dvd_of_mod_eq_zero hmod
      have hmul : i * (n / i) = n := Nat.mul_div_cancel' hdvd
      rw [← hmul, hk, pow_succ]
      ring
    · rw [if_neg hmod] at h
      cases h
      exact ⟨0, by simp⟩

/-- If `i` is already recorded, the stripping loop records nothing
new. -/
theorem strip_fuel_contains :
    ∀ fuel i n factors factors' n', factors.contains i = true →
      strip_fuel fuel i n factors = some (factors', n') →
        factors' = factors := by
  intro fuel
  induction fuel with
  | zero => intro i n factors factors' n' _ h; exact absurd h (by simp [strip_fuel])
  | succ fuel ih =>
    intro i n factors factors' n' hcon h
    rw [strip_fuel] at h
    by_cases hmod : n % i = 0
    · rw [if_pos hmod, if_pos hcon] at h
      exact ih i (n / i) _ _ _ hcon h
    · rw [if_neg hmod] at h
      cases h
      rfl

/-- Membership in the output of the stripping loop: exactly `i` is
added, and only when `i ∣ n`. -/
theorem strip_fuel_mem :
    ∀ fuel i n factors factors' n',
      strip_fuel fuel i n factors = some (factors', n') →
      ∀ x, (x ∈ factors' ↔ x ∈ factors ∨ (x = i ∧ i ∣ n)) := by
  intro fuel
  induction fuel with
  | zero => intro i n factors factors' n' h; exact absurd h (by simp [strip_fuel])
  | succ fuel ih =>
    intro i n factors factors' n' h x
    rw [strip_fuel] at h
    by_cases hmod : n % i = 0
    · rw [if_pos hmod] at h
      have hdvd : i ∣ n := Nat.dvd_of_mod_eq_zero hmod
      by_cases hcon : factors.contains i = true
      · rw [if_pos hcon] at h
        have hci : i ∈ factors := by simpa using hcon
        rw [ih i (n / i) _ _ _ h x]
        constructor
        · rintro (hx | ⟨hx, _⟩)
          · exact Or.inl hx
          · exact Or.inl (hx ▸ hci)
        · rintro (hx | ⟨hx, _⟩)
          · exact Or.inl hx
          · exact Or.inl (hx ▸ hci)
      · rw [if_neg hcon] at h
        rw [ih i (n / i) _ _ _ h x]
        constructor
        · rintro (hx | ⟨hx, _⟩)
          · rcases List.mem_append.1 hx with hx | hx
            · exact Or.inl hx
            · simp only [List.mem_singleton] at hx
              exact Or.inr ⟨hx, hdvd⟩
          · exact Or.inr ⟨hx, hdvd⟩
        · rintro (hx | ⟨hx, _⟩)
          · exact Or.inl (List.mem_append.2 (Or.inl hx))
          · exact Or.inl (List.mem_append.2 (Or.inr (by simp [hx])))
    · rw [if_neg hmod] at h
      cases h
      constructor
      · exact fun hx => Or.inl hx
      · rintro (hx | ⟨hx, hdvd⟩)
        · exact hx
        · exact absurd (Nat.mod_eq_zero_of_dvd hdvd) hmod

/-- The stripping loop appends at most `[i]`, and only when `i ∣ n`. -/
theorem strip_fuel_append :
    ∀ fuel i n factors factors' n',
      strip_fuel fuel i n factors = some (factors', n') →
      factors' = factors ∨ (factors' = factors ++ [i] ∧ i ∣ n) := by
  intro fuel
  induction fuel with
  | zero => intro i n factors factors' n' h; exact absurd h (by simp [strip_fuel])
  | succ fuel ih =>
    intro i n factors factors' n' h
    rw [strip_fuel] at h
    by_cases hmod : n % i = 0
    · rw [if_pos hmod] at h
      have hdvd : i ∣ n := Nat.dvd_of_mod_eq_zero hmod
      by_cases hcon : factors.contains i = true
      · rw [if_pos hcon] at h
        exact Or.inl (strip_fuel_contains fuel i (n / i) _ _ _ hcon h)
      · rw [if_neg hcon] at h
        have hc2 : (factors ++ [i]).contains i = true := by simp
        exact Or.inr ⟨strip_fuel_contains fuel i (n / i) _ _ _ hc2 h, hdvd⟩
    · rw [if_neg hmod] at h
      cases h
      exact Or.inl rfl

/-- Case equation: the outer loop propagates a stuck inner loop. -/
theorem odd_fac_eq_none {i n : Nat} {fs : List Nat} (hle : i * i ≤ n)
    (hs : strip i n fs = none) : odd_fac i n fs = none := by
  rw [odd_fac, if_pos hle]
  split
  · rfl
  · rename_i a b heq
    rw [hs] at heq
    exact absurd heq (by simp)

/-- Case equation: one outer iteration strips `i` and advances to
`i + 2`. -/
theorem odd_fac_eq_step {i n : Nat} {fs fs' : List Nat} {n' : Nat}
    (hle : i * i ≤ n) (hs : strip i n fs = some (fs', n')) :
    odd_fac i n fs = odd_fac (i + 2) n' fs' := by
  rw [odd_fac, if_pos hle]
  split
  · rename_i heq
    rw [hs] at heq
    exact absurd heq (by simp)
  · rename_i a b heq
    rw [hs] at heq
    cases heq
    rfl

/-- Case equation: the outer loop exits when `i * i > n`. -/
theorem odd_fac_eq_exit {i n : Nat} {fs : List Nat} (hnle : ¬ i * i ≤ n) :
    odd_fac i n fs = some (fs, n) := by
  rw [odd_fac, if_neg hnle]

/-- Full invariant of the odd trial-division loop: starting at an odd
`i ≥ 3` on an `n ≥ 1` with no divisor in `[2, i)`, it returns a cofactor
`m` that is `1` or prime and divides `n`, records exactly the primes
dividing `n` other than `m`, and appends them in strictly increasing
order, all at least `i` and below `m` (when `m ≠ 1`). -/
theorem odd_fac_spec :
    ∀ i n factors, ∀ factors2 m, odd_fac i n factors = some (factors2, m) →
      3 ≤ i → i % 2 = 1 → 1 ≤ n → (∀ d, 2 ≤ d → d < i → ¬ d ∣ n) →
      1 ≤ m ∧ m ∣ n ∧ (m = 1 ∨ Nat.Prime m) ∧
      (∀ x, x ∈ factors2 ↔ x ∈ factors ∨ (Nat.Prime x ∧ x ∣ n ∧ x ≠ m)) ∧
      ∃ ext, factors2 = factors ++ ext ∧ List.Pairwise (· < ·) ext ∧
        ∀ x ∈ ext, i ≤ x ∧ (m = 1 ∨ x < m) := by
  intro i n factors
  induction i, n, factors using odd_fac.induct with
  | case1 i n factors hle hnone =>
    intro factors2 m h
    rw [odd_fac_eq_none hle hnone] at h
    exact absurd h (by simp)
  | case2 i n factors hle factors' n' hstrip ih =>
    intro factors2 m h h3 hodd hn hinv
    rw [odd_fac_eq_step hle hstrip] at h
    obtain ⟨k, hk⟩ := strip_fuel_pow _ _ _ _ _ _ hstrip
    have hnotdvd : ¬ i ∣ n' := strip_fuel_not_dvd _ _ _ _ _ _ hstrip
    have hmem1 := strip_fuel_mem _ _ _ _ _ _ hstrip
    have happ := strip_fuel_append _ _ _ _ _ _ hstrip
    have hn'dvd : n' ∣ n := ⟨i ^ k, by rw [hk]; ring⟩
    have hn' : 1 ≤ n' := by
      rcases Nat.eq_zero_or_pos n' with h0 | h1
      · rw [h0, Nat.mul_zero] at hk
        omega
      · exact h1
    have hinv2 : ∀ d, 2 ≤ d → d < i + 2 → ¬ d ∣ n' := by
      intro d h2d hdi hdvd
      rcases Nat.lt_or_ge d i with hlt | hge
      · exact hinv d h2d hlt (hdvd.trans hn'dvd)
      · rcases Nat.eq_or_lt_of_le hge with he | hlt2
        · exact hnotdvd (he ▸ hdvd)
        · have hde : d = i + 1 := by omega
          have h2d2 : 2 ∣ d := by omega
          have h2n : (2 : Nat) ∣ n := (h2d2.trans hdvd).trans hn'dvd
          exact hinv 2 le_rfl (by omega) h2n
    have hiprime : i ∣ n → Nat.Prime i := by
      intro hdvd
      rw [Nat.prime_def_minFac]
      refine ⟨by omega, ?_⟩
      by_contra hne
      have hmf := Nat.minFac_dvd i
      have hmfp : Nat.Prime (Nat.minFac i) := Nat.minFac_prime (by omega)
      have hmfle : Nat.minFac i ≤ i := Nat.minFac_le (by omega)
      exact hinv _ hmfp.two_le (by omega) (hmf.trans hdvd)
    obtain ⟨ihm1, ihmdvd, ihmp, ihmem, ext2, hext2, hpair2, hbound2⟩ :=
      ih factors2 m h (by omega) (by omega) hn' hinv2
    refine ⟨ihm1, ihmdvd.trans hn'dvd, ihmp, ?_, ?_⟩
    · intro x
      rw [ihmem x, hmem1 x]
      constructor
      · rintro ((hx | ⟨hxi, hdvd⟩) | ⟨hxp, hxdvd, hxm⟩)
        · exact Or.inl hx
        · subst hxi
          refine Or.inr ⟨hiprime hdvd, hdvd, ?_⟩
          intro he
          exact hnotdvd (he ▸ ihmdvd)
        · exact Or.inr ⟨hxp, hxdvd.trans hn'dvd, hxm⟩
      · rintro (hx | ⟨hxp, hxdvd, hxm⟩)
        · exact Or.inl (Or.inl hx)
        · have hxdvd2 := hxdvd
          rw [hk] at hxdvd2
          rcases (hxp.dvd_mul).1 hxdvd2 with hxi | hxn'
        
          · have hxi2 : x ∣ i := hxp.dvd_of_dvd_pow hxi
            have hxgei : i ≤ x := by
              by_contra hlt2
              exact hinv x hxp.two_le (by omega) hxdvd
            have hxeq : x = i :=
              le_antisymm (Nat.le_of_dvd (by omega) hxi2) hxgei
            exact Or.inl (Or.inr ⟨hxeq, hxeq ▸ hxdvd⟩)
          · exact Or.inr ⟨hxp, hxn', hxm⟩
    · rcases happ with happ | ⟨happ, hidvd⟩
      · refine ⟨ext2, by rw [hext2, happ], hpair2, ?_⟩
        intro x hx
        obtain ⟨hb1, hb2⟩ := hbound2 x hx
        exact ⟨by omega, hb2⟩
      · refine ⟨i :: ext2, ?_, ?_, ?_⟩
        · rw [hext2, happ, List.append_assoc]
          rfl
        · rw [List.pairwise_cons]
          refine ⟨?_, hpair2⟩
          intro x hx
          have := (hbound2 x hx).1
          omega
        · intro x hx
          rcases List.mem_cons.1 hx with hxe | hxe
          · subst hxe
            refine ⟨le_rfl, ?_⟩
            rcases ihmp with h1 | hp
            · exact Or.inl h1
            · right
              by_contra hlt
              exact hinv2 m hp.two_le (by omega) ihmdvd
          · obtain ⟨hb1, hb2⟩ := hbound2 x hxe
            exact ⟨by omega, hb2⟩
  | case3 i n factors hnle =>
    intro factors2 m h h3 hodd hn hinv
    rw [odd_fac_eq_exit hnle] at h
    cases h
    have hnodiv : ∀ x, Nat.Prime x → x ∣ n → x ≠ n → False := by
      intro x hxp hxd hxn
      have hxge : i ≤ x := by
        by_contra hlt
        exact hinv x hxp.two_le (by omega) hxd
      have hq : x * (n / x) = n := Nat.mul_div_cancel' hxd
      have hq2 : 2 ≤ n / x := by
        have h0 : 1 ≤ n / x := Nat.div_pos (Nat.le_of_dvd (by omega) hxd) (by omega)
        have h1 : n / x ≠ 1 := by
          intro he
          rw [he, Nat.mul_one] at hq
          exact hxn hq
        omega
      have hdq : n / x ∣ n := Nat.div_dvd_of_dvd hxd
      have hqge : i ≤ n / x := by
        by_contra hlt
        exact hinv (n / x) hq2 (by omega) hdq
      have hmul : i * i ≤ x * (n / x) := Nat.mul_le_mul hxge hqge
      rw [hq] at hmul
      exact hnle hmul
    have hprime_or : n = 1 ∨ Nat.Prime n := by
      by_cases hn1 : n = 1
      · exact Or.inl hn1
      · right
        by_contra hnp
        have hsq := Nat.minFac_sq_le_self (by omega) hnp
        have hmfp := Nat.minFac_prime hn1
        have hmfge : i ≤ n.minFac := by
          by_contra hlt
          exact hinv _ hmfp.two_le (by omega) (Nat.minFac_dvd n)
        have hmm : i * i ≤ n.minFac * n.minFac := Nat.mul_le_mul hmfge hmfge
        rw [pow_two] at hsq
        exact hnle (le_trans hmm hsq)
    refine ⟨hn, dvd_rfl, hprime_or, ?_, ⟨[], by simp, List.Pairwise.nil, by simp⟩⟩
    intro x
    constructor
    · exact fun hx => Or.inl hx
    · rintro (hx | ⟨hxp, hxd, hxm⟩)
      · exact hx
      · exact (hnodiv x hxp hxd hxm).elim

/-- The outer loop of `prime_factors` terminates on every cofactor
`n ≥ 1`. -/
theorem odd_fac_some :
    ∀ i n fs, 1 ≤ n → 2 ≤ i → ∃ r, odd_fac i n fs = some r := by
  intro i n fs
  induction i, n, fs using odd_fac.induct with
  | case1 i n fs hle hnone =>
    intro hn hi
    obtain ⟨r, hr⟩ := strip_fuel_some (n + 1) n i fs (by omega) hn hi
    unfold strip at hnone
    rw [hr] at hnone
    exact absurd hnone (by simp)
  | case2 i n fs hle fs' n' hstrip ih =>
    intro hn hi
    obtain ⟨k, hk⟩ := strip_fuel_pow _ _ _ _ _ _ hstrip
    have hn' : 1 ≤ n' := by
      rcases Nat.eq_zero_or_pos n' with h0 | h1
      · rw [h0, Nat.mul_zero] at hk
        omega
      · exact h1
    obtain ⟨r, hr⟩ := ih hn' (by omega)
    exact ⟨r, by rw [odd_fac_eq_step hle hstrip]; exact hr⟩
  | case3 i n fs hnle =>
    intro _hn _hi
    exact ⟨(fs, n), odd_fac_eq_exit hnle⟩

/-- Functional correctness of `prime_factors` on `n ≥ 1`: it terminates
and returns exactly the distinct prime divisors of `n`, in strictly
increasing order. -/
theorem prime_factors_spec (n : Nat) (hn : 1 ≤ n) :
    ∃ l, prime_factors n = some l ∧ List.Pairwise (· < ·) l ∧
      ∀ x, x ∈ l ↔ Nat.Prime x ∧ x ∣ n := by
  obtain ⟨⟨fs1, n1⟩, hstrip⟩ : ∃ r, strip 2 n [] = some r :=
    strip_fuel_some (n + 1) n 2 [] (by omega) hn (by omega)
  obtain ⟨k, hk⟩ := strip_fuel_pow _ _ _ _ _ _ hstrip
  have hnotdvd : ¬ (2 : Nat) ∣ n1 := strip_fuel_not_dvd _ _ _ _ _ _ hstrip
  have hmem1 := strip_fuel_mem _ _ _ _ _ _ hstrip
  have happ1 := strip_fuel_append _ _ _ _ _ _ hstrip
  have hn1dvd : n1 ∣ n := ⟨2 ^ k, by rw [hk]; ring⟩
  have hn1 : 1 ≤ n1 := by
    rcases Nat.eq_zero_or_pos n1 with h0 | h1
    · rw [h0, Nat.mul_zero] at hk
      omega
    · exact h1
  have hinv : ∀ d, 2 ≤ d → d < 3 → ¬ d ∣ n1 := by
    intro d h2 h3 hd
    have hde : d = 2 := by omega
    exact hnotdvd (hde ▸ hd)
  obtain ⟨⟨fs2, m⟩, hodd⟩ : ∃ r, odd_fac 3 n1 fs1 = some r :=
    odd_fac_some 3 n1 fs1 hn1 (by omega)
  obtain ⟨hm1, hmdvd, hmp, hmem2, ext, hext, hpair, hbound⟩ :=
    odd_fac_spec 3 n1 fs1 fs2 m hodd (by omega) (by omega) hn1 hinv
  have hpf : prime_factors n =
      some (if 1 < m ∧ ¬ fs2.contains m then fs2 ++ [m] else fs2) := by
    unfold prime_factors
    rw [hstrip]
    simp only [hodd]
  have hfs1mem : ∀ x, x ∈ fs1 ↔ x = 2 ∧ 2 ∣ n := by
    intro x
    rw [hmem1 x]
    simp
  have hfs1struct : fs1 = [] ∨ (fs1 = [2] ∧ 2 ∣ n) := by
    rcases happ1 with h | ⟨h, hd⟩
    · exact Or.inl h
    · exact Or.inr ⟨by simpa using h, hd⟩
  have hdecomp : ∀ x, Nat.Prime x → (x ∣ n ↔ (x = 2 ∧ 2 ∣ n) ∨ x ∣ n1) := by
    intro x hxp
    constructor
    · intro hxd
      have hxd2 := hxd
      rw [hk] at hxd2
      rcases hxp.dvd_mul.1 hxd2 with hx2 | hxn1
      · have hdd : x ∣ 2 := hxp.dvd_of_dvd_pow hx2
        have hx2e : x = 2 := (Nat.prime_dvd_prime_iff_eq hxp Nat.prime_two).1 hdd
        exact Or.inl ⟨hx2e, hx2e ▸ hxd⟩
      · exact Or.inr hxn1
    · rintro (⟨he, hd⟩ | hd)
      · exact he ▸ hd
      · exact hd.trans hn1dvd
  have hpairfs2 : List.Pairwise (· < ·) fs2 := by
    rw [hext, List.pairwise_append]
    refine ⟨?_, hpair, ?_⟩
    · rcases hfs1struct with h | ⟨h, _⟩ <;> simp [h]
    · intro a ha b hb
      rcases hfs1struct with h | ⟨h, _⟩
      · rw [h] at ha
        simp at ha
      · rw [h] at ha
        simp only [List.mem_singleton] at ha
        subst ha
        have := (hbound b hb).1
        omega
  by_cases hm : 1 < m
  · have hmp2 : Nat.Prime m := by
      rcases hmp with h1 | hp
      · omega
      · exact hp
    have hmne2 : m ≠ 2 := by
      intro he
      exact hnotdvd (he ▸ hmdvd)
    have hmnotin : ¬ m ∈ fs2 := by
      intro hin
      rw [hmem2 m] at hin
      rcases hin with hin | ⟨_, _, hne⟩
      · rw [hfs1mem m] at hin
        exact hmne2 hin.1
      · exact hne rfl
    have hcon : fs2.contains m = false := by simpa using hmnotin
    have hallm : ∀ a ∈ fs2, a < m := by
      intro a ha
      rw [hext] at ha
      rcases List.mem_append.1 ha with ha | ha
      · have h2a := (hfs1mem a).1 ha
        omega
      · rcases (hbound a ha).2 with h1 | hlt
        · omega
        · exact hlt
    refine ⟨fs2 ++ [m], ?_, ?_, ?_⟩
    · rw [hpf, if_pos ⟨hm, by rw [hcon]; simp⟩]
    · rw [List.pairwise_append]
      refine ⟨hpairfs2, List.pairwise_singleton _ _, ?_⟩
      intro a ha b hb
      simp only [List.mem_singleton] at hb
      subst hb
      exact hallm a ha
    · intro x
      rw [List.mem_append, hmem2 x, hfs1mem x]
      simp only [List.mem_singleton]
      constructor
      · rintro ((hx | ⟨hxp, hxd, _⟩) | hxm)
        · exact ⟨hx.1 ▸ Nat.prime_two, hx.1 ▸ hx.2⟩
        · exact ⟨hxp, hxd.trans hn1dvd⟩
        · subst hxm
          exact ⟨hmp2, hmdvd.trans hn1dvd⟩
      · rintro ⟨hxp, hxd⟩
        rcases (hdecomp x hxp).1 hxd with h2 | hn1d
        · exact Or.inl (Or.inl h2)
        · by_cases hxm : x = m
          · exact Or.inr hxm
          · exact Or.inl (Or.inr ⟨hxp, hn1d, hxm⟩)
  · have hme : m = 1 := by omega
    refine ⟨fs2, ?_, hpairfs2, ?_⟩
    · rw [hpf, if_neg ?_]
      intro hcond
      exact absurd hcond.1 (by omega)
    · intro x
      rw [hmem2 x, hfs1mem x]
      constructor
      · rintro (hx | ⟨hxp, hxd, _⟩)
        · exact ⟨hx.1 ▸ Nat.prime_two, hx.1 ▸ hx.2⟩
        · exact ⟨hxp, hxd.trans hn1dvd⟩
      · rintro ⟨hxp, hxd⟩
        rcases (hdecomp x hxp).1 hxd with h2 | hn1d
        · exact Or.inl h2
        · refine Or.inr ⟨hxp, hn1d, ?_⟩
          intro he
          exact hxp.ne_one (he.trans hme)

/-- On input `0` the factor-2 loop of `prime_factors` never exits; the
model returns `none`. -/
theorem prime_factors_zero : prime_factors 0 = none := rfl

/-- On input `1` the loops exit immediately and nothing is recorded. -/
theorem prime_factors_one : prime_factors 1 = some [] := by
  have h1 : strip 2 1 [] = some ([], 1) := rfl
  have h2 : odd_fac 3 1 [] = some ([], 1) := odd_fac_eq_exit (by norm_num)
  unfold prime_factors
  rw [h1]
  simp only [h2]
  norm_num

/-- `is_generator(g, 1)` inherits the nonterminating loop: the source
computes `phi = 1 - 1 = 0` and `prime_factors(0)` never exits its
stripping loop. -/
theorem is_generator_one_none (g : Nat) : is_generator g 1 = none := by
  unfold is_generator
  rw [show (1 : Nat) - 1 = 0 from rfl, prime_factors_zero]

/-- `is_generator` terminates whenever `p ≥ 2`. -/
theorem is_generator_some (g p : Nat) (hp : 2 ≤ p) :
    ∃ b, is_generator g p = some b := by
  obtain ⟨l, hl, _, _⟩ := prime_factors_spec (p - 1) (by omega)
  refine ⟨gen_check g p (p - 1) l, ?_⟩
  unfold is_generator
  rw [hl]

/-- The generator scan never hits the nonterminating case when
`q ≥ 2`. -/
theorem root_scan_ne_none (q phi two_n : Nat) (hq : 2 ≤ q) :
    ∀ remaining candidate,
      root_scan q phi two_n candidate remaining ≠ none := by
  intro remaining
  induction remaining with
  | zero => intro candidate; simp [root_scan]
  | succ remaining ih =>
    intro candidate
    obtain ⟨b, hb⟩ := is_generator_some candidate q hq
    rw [root_scan, hb]
    cases b
    · exact ih (candidate + 1)
    · simp

/-- `find_primitive_root` terminates on every input: the guard filters
out every modulus on which the inner loops could get stuck. -/
theorem find_primitive_root_ne_none (q n : Nat) :
    find_primitive_root q n ≠ none := by
  unfold find_primitive_root
  by_cases hg : is_ntt_friendly_prime q n = true
  · rw [if_pos hg]
    have hq : 2 ≤ q := by
      by_contra hlt
      unfold is_ntt_friendly_prime at hg
      rw [if_pos (Or.inl (by omega))] at hg
      exact absurd hg (by simp)
    exact root_scan_ne_none q (q - 1) (2 * n) hq (q - 2) 2
  · rw [if_neg hg]
    simp

/-! ### Claims C4 and C5 -/

/-- Counterexample to C4 as stated: on input `0` the factor-2 stripping
loop never exits (no iteration budget suffices), so `prime_factors 0`
does not return the empty sequence — it does not return at all. -/
theorem claim_C4_counterexample :
    prime_factors 0 = none ∧ strip_loop_stuck 0 :=
  ⟨prime_factors_zero, fun fuel factors => strip_fuel_zero_none fuel 2 factors⟩

/-- C4 (amended): for every `n ≥ 1`, `prime_factors n` returns exactly
the distinct prime divisors of `n`, in ascending order, each exactly
once (`prime_factors 1 = []` in particular); on `n = 0` the source's
first loop never exits, so nothing is returned. -/
theorem claim_C4_prime_factors :
    (∀ n, 1 ≤ n → ∃ l, prime_factors n = some l ∧
      List.Pairwise (· < ·) l ∧ ∀ x, x ∈ l ↔ Nat.Prime x ∧ x ∣ n) ∧
    prime_factors 1 = some [] ∧
    prime_factors 0 = none ∧
    strip_loop_stuck 0 :=
  ⟨fun n hn => prime_factors_spec n hn, prime_factors_one,
   prime_factors_zero, fun fuel factors => strip_fuel_zero_none fuel 2 factors⟩

/-- Witness for C4 (amended) at `n = 12`. -/
theorem claim_C4_prime_factors_witness :
    ∃ l, prime_factors 12 = some l ∧
      List.Pairwise (· < ·) l ∧ ∀ x, x ∈ l ↔ Nat.Prime x ∧ x ∣ 12 :=
  claim_C4_prime_factors.1 12 (by decide)

/-- Counterexample to C5 as stated: `is_generator g 1` computes
`prime_factors 0`, whose first loop never exits. -/
theorem claim_C5_counterexample :
    is_generator 2 1 = none ∧ strip_loop_stuck 0 :=
  ⟨is_generator_one_none 2,
   fun fuel factors => strip_fuel_zero_none fuel 2 factors⟩

/-- C5 (amended): `prime_factors` terminates on every `n ≥ 1` and
`is_generator` on every `p ≥ 2`, and `find_primitive_root` terminates on
every input; but `prime_factors 0` and `is_generator g 1` (where
`phi = 0`) never exit the factor-stripping loop.  (The remaining
functions — `is_prime`, `mod_exp`, `is_ntt_friendly_prime`,
`get_first_prime_down`, `get_primes_down` — are total functions of the
model, their loops proved terminating by the well-founded recursions
defining them.  `is_generator` at `p = 0` is outside this statement:
there the source's `p - 1` underflows before any loop is reached.) -/
theorem claim_C5_termination :
    (∀ n, 1 ≤ n → ∃ l, prime_factors n = some l) ∧
    (∀ g p, 2 ≤ p → ∃ b, is_generator g p = some b) ∧
    (∀ q n, find_primitive_root q n ≠ none) ∧
    (∀ g, is_generator g 1 = none) ∧
    prime_factors 0 = none ∧
    strip_loop_stuck 0 := by
  refine ⟨?_, ?_, find_primitive_root_ne_none, is_generator_one_none,
    prime_factors_zero, fun fuel factors => strip_fuel_zero_none fuel 2 factors⟩
  · intro n hn
    obtain ⟨l, hl, _, _⟩ := prime_factors_spec n hn
    exact ⟨l, hl⟩
  · intro g p hp
    exact is_generator_some g p hp

/-- Witness for C5 (amended) at concrete inputs. -/
theorem claim_C5_termination_witness :
    (∃ l, prime_factors 5 = some l) ∧
    (∃ b, is_generator 2 3 = some b) ∧
    find_primitive_root 4 1 ≠ none ∧
    is_generator 2 1 = none :=
  ⟨claim_C5_termination.1 5 (by decide),
   claim_C5_termination.2.1 2 3 (by decide),
   claim_C5_termination.2.2.1 4 1,
   claim_C5_termination.2.2.2.1 2⟩

/-! ### The generator test and the primitive root -/

/-- The `is_generator` loop returns `true` iff no listed factor `f` has
`g^(phi/f) ≡ 1 (mod p)`. -/
theorem gen_check_eq_true_iff (g p phi : Nat) :
    ∀ l, gen_check g p phi l = true ↔
      ∀ f ∈ l, mod_exp g (phi / f) p ≠ 1 := by
  intro l
  induction l with
  | nil => simp [gen_check]
  | cons f rest ih =>
    rw [gen_check]
    by_cases hf : mod_exp g (phi / f) p = 1
    · rw [if_pos hf]
      simp only [Bool.false_eq_true, false_iff]
      intro hall
      exact hall f (by simp) hf
    · rw [if_neg hf, ih]
      constructor
      · intro h f2 hf2
        rcases List.mem_cons.1 hf2 with he | hm
        · exact he ▸ hf
        · exact h f2 hm
      · intro h f2 hf2
        exact h f2 (List.mem_cons_of_mem _ hf2)

/-- Semantic characterization of `is_generator` on a prime-capable
modulus: it returns `some true` iff `g^((p-1)/f) ≢ 1` for every prime
factor `f` of `p - 1`. -/
theorem is_generator_eq_true_iff (g p : Nat) (hp : 2 ≤ p) :
    (is_generator g p = some true ↔
      ∀ f, Nat.Prime f → f ∣ p - 1 → mod_exp g ((p - 1) / f) p ≠ 1) := by
  obtain ⟨l, hl, _, hmem⟩ := prime_factors_spec (p - 1) (by omega)
  unfold is_generator
  rw [hl]
  show some (gen_check g p (p - 1) l) = some true ↔ _
  simp only [Option.some_inj]
  rw [gen_check_eq_true_iff]
  constructor
  · intro h f hfp hfd
    exact h f ((hmem f).2 ⟨hfp, hfd⟩)
  · intro h f hf
    obtain ⟨hfp, hfd⟩ := (hmem f).1 hf
    exact h f hfp hfd

/-- Bridge between `mod_exp` and exponentiation in `ZMod q`. -/
theorem mod_exp_eq_one_iff (a e q : Nat) (hq : 2 ≤ q) :
    (mod_exp a e q = 1 ↔ (a : ZMod q) ^ e = 1) := by
  haveI : NeZero q := ⟨by omega⟩
  haveI : Fact (1 < q) := ⟨by omega⟩
  rw [mod_exp_eq a e q (by omega)]
  constructor
  · intro h
    have hcast : ((a ^ e % q : Nat) : ZMod q) = ((1 : Nat) : ZMod q) := by
      rw [h]
    rw [ZMod.natCast_mod, Nat.cast_pow, Nat.cast_one] at hcast
    exact hcast
  · intro h
    have hc : ((a ^ e : Nat) : ZMod q) = 1 := by
      rw [Nat.cast_pow]
      exact h
    have hval := congrArg ZMod.val hc
    rw [ZMod.val_natCast, ZMod.val_one] at hval
    exact hval

/-- An element passing the primitive-root criterion for every prime
factor of `q - 1` has multiplicative order exactly `q - 1`. -/
theorem orderOf_eq_of_gen {q : Nat} (hq : Nat.Prime q) {x : ZMod q}
    (hx : x ≠ 0)
    (h : ∀ f, Nat.Prime f → f ∣ q - 1 → x ^ ((q - 1) / f) ≠ 1) :
    orderOf x = q - 1 := by
  haveI : Fact (Nat.Prime q) := ⟨hq⟩
  have hq2 := hq.two_le
  set u : (ZMod q)ˣ := Units.mk0 x hx with hu
  have hux : (u : ZMod q) = x := rfl
  have hord : orderOf x = orderOf u := by
    rw [← hux]
    exact orderOf_units
  have hcard : Fintype.card (ZMod q)ˣ = q - 1 := ZMod.card_units q
  have hdvd : orderOf u ∣ q - 1 := hcard ▸ orderOf_dvd_card
  rw [hord]
  by_contra hne
  have hphi : 1 ≤ q - 1 := by omega
  obtain ⟨c, hc⟩ := hdvd
  have hord_pos : 0 < orderOf u := orderOf_pos u
  have hclt : 1 < c := by
    rcases Nat.lt_or_ge c 2 with hc2 | hc2
    · have hc01 : c = 0 ∨ c = 1 := by omega
      rcases hc01 with h0 | h1
      · rw [h0, Nat.mul_zero] at hc
        omega
      · rw [h1, Nat.mul_one] at hc
        exact absurd hc.symm hne
    · exact hc2
  have hfp : Nat.Prime (Nat.minFac c) := Nat.minFac_prime (by omega)
  have hfc : Nat.minFac c ∣ c := Nat.minFac_dvd c
  have hcd : c ∣ q - 1 := ⟨orderOf u, by rw [hc]; ring⟩
  have hfd : Nat.minFac c ∣ q - 1 := hfc.trans hcd
  have hdivf : orderOf u ∣ (q - 1) / Nat.minFac c := by
    obtain ⟨d, hd⟩ := hfc
    refine ⟨d, ?_⟩
    have hq1 : q - 1 = Nat.minFac c * (orderOf u * d) := by
      calc q - 1 = orderOf u * c := hc
        _ = orderOf u * (Nat.minFac c * d) := by rw [← hd]
        _ = Nat.minFac c * (orderOf u * d) := by ring
    rw [hq1, Nat.mul_div_cancel_left _ hfp.pos]
  have hpow : u ^ ((q - 1) / Nat.minFac c) = 1 :=
    orderOf_dvd_iff_pow_eq_one.1 hdivf
  have hxpow : x ^ ((q - 1) / Nat.minFac c) = 1 := by
    have hcv := congrArg Units.val hpow
    rw [Units.val_pow_eq_pow_val, hux] at hcv
    simpa using hcv
  exact h _ hfp hfd hxpow

/-- Inversion of the generator scan: a returned root comes from the
first generator `g` in the scanned range. -/
theorem root_scan_some (q phi two_n : Nat) :
    ∀ remaining candidate ψ,
      root_scan q phi two_n candidate remaining = some (some ψ) →
      ∃ g, candidate ≤ g ∧ g < candidate + remaining ∧
        is_generator g q = some true ∧ ψ = mod_exp g (phi / two_n) q := by
  intro remaining
  induction remaining with
  | zero =>
    intro candidate ψ h
    simp [root_scan] at h
  | succ remaining ih =>
    intro candidate ψ h
    rw [root_scan] at h
    cases hgen : is_generator candidate q with
    | none =>
      rw [hgen] at h
      exact absurd h (by simp)
    | some b =>
      rw [hgen] at h
      cases b
      · obtain ⟨g, hg1, hg2, hg3, hg4⟩ := ih (candidate + 1) ψ h
        exact ⟨g, by omega, by omega, hg3, hg4⟩
      · have h2 : some (some (mod_exp candidate (phi / two_n) q)) =
            some (some ψ) := h
        simp only [Option.some_inj] at h2
        exact ⟨candidate, le_rfl, by omega, hgen, h2.symm⟩

/-! ### Claim C3 -/

/-- C3: a root `ψ` returned by `find_primitive_root(q, n)` satisfies
`mod_exp(ψ, 2n, q) = 1` and `mod_exp(ψ, d, q) ≠ 1` for every proper
divisor `d` of `2n` — it has multiplicative order exactly `2n` modulo
`q`. -/
theorem claim_C3_find_primitive_root (q n ψ : Nat)
    (h : find_primitive_root q n = some (some ψ)) :
    mod_exp ψ (2 * n) q = 1 ∧
      ∀ d, d ∣ 2 * n → d < 2 * n → mod_exp ψ d q ≠ 1 := by
  have hg : is_ntt_friendly_prime q n = true := by
    by_contra hng
    unfold find_primitive_root at h
    rw [if_neg hng] at h
    simp at h
  have hguard : 2 ≤ q ∧ 1 ≤ n ∧ q % (2 * n) = 1 ∧ is_prime q = true := by
    unfold is_ntt_friendly_prime at hg
    by_cases hng : q < 2 ∨ n < 1
    · rw [if_pos hng] at hg
      exact absurd hg (by simp)
    · rw [if_neg hng] at hg
      simp only [Bool.and_eq_true, decide_eq_true_eq] at hg
      exact ⟨by omega, by omega, hg.1, hg.2⟩
  obtain ⟨hq2, hn1, hqmod, hqp⟩ := hguard
  have hqprime : Nat.Prime q := (is_prime_iff q).1 hqp
  haveI : Fact (Nat.Prime q) := ⟨hqprime⟩
  haveI : NeZero q := ⟨by omega⟩
  have h2n : 2 ≤ 2 * n := by omega
  have hdvdphi : 2 * n ∣ q - 1 := by
    have hdm := Nat.div_add_mod q (2 * n)
    rw [hqmod] at hdm
    exact ⟨q / (2 * n), by omega⟩
  have hphi1 : 1 ≤ q - 1 := by omega
  have hscan : root_scan q (q - 1) (2 * n) 2 (q - 2) = some (some ψ) := by
    unfold find_primitive_root at h
    rw [if_pos hg] at h
    exact h
  obtain ⟨g, hg2, hglt, hgen, hpsi⟩ :=
    root_scan_some q (q - 1) (2 * n) (q - 2) 2 ψ hscan
  have hgltq : g < q := by omega
  have hgenprop := (is_generator_eq_true_iff g q (by omega)).1 hgen
  have hgx : ((g : ZMod q)) ≠ 0 := by
    intro h0
    rw [ZMod.natCast_zmod_eq_zero_iff_dvd] at h0
    have := Nat.le_of_dvd (by omega) h0
    omega
  have hgprop2 : ∀ f, Nat.Prime f → f ∣ q - 1 →
      (g : ZMod q) ^ ((q - 1) / f) ≠ 1 := by
    intro f hfp hfd hone
    exact hgenprop f hfp hfd
      ((mod_exp_eq_one_iff g ((q - 1) / f) q (by omega)).2 hone)
  have hord : orderOf ((g : ZMod q)) = q - 1 :=
    orderOf_eq_of_gen hqprime hgx hgprop2
  set u : (ZMod q)ˣ := Units.mk0 ((g : ZMod q)) hgx with hu
  have hux : (u : ZMod q) = (g : ZMod q) := rfl
  have hordu : orderOf u = q - 1 := by
    have h1 : orderOf ((u : ZMod q)) = orderOf u := orderOf_units
    rw [hux] at h1
    rw [← h1]
    exact hord
  have hpsival : ((ψ : ZMod q)) = ((u ^ ((q - 1) / (2 * n)) : (ZMod q)ˣ) : ZMod q) := by
    rw [hpsi, mod_exp_eq g _ q (by omega), ZMod.natCast_mod, Nat.cast_pow,
      Units.val_pow_eq_pow_val, hux]
  have hordpsi : orderOf ((ψ : ZMod q)) = 2 * n := by
    rw [hpsival, @orderOf_units (ZMod q) _ (u ^ ((q - 1) / (2 * n))),
      orderOf_pow, hordu, Nat.gcd_eq_right (Nat.div_dvd_of_dvd hdvdphi)]
    exact Nat.div_div_self hdvdphi (by omega)
  constructor
  · rw [mod_exp_eq_one_iff ψ (2 * n) q (by omega), ← hordpsi]
    exact pow_orderOf_eq_one _
  · intro d hd hdlt hone
    rw [mod_exp_eq_one_iff ψ d q (by omega)] at hone
    have hdvd2 : orderOf ((ψ : ZMod q)) ∣ d := orderOf_dvd_iff_pow_eq_one.2 hone
    rw [hordpsi] at hdvd2
    have hd0 : 0 < d := by
      rcases Nat.eq_zero_or_pos d with h0 | h1
      · subst h0
        have := Nat.eq_zero_of_zero_dvd hd
        omega
      · exact h1
    have := Nat.le_of_dvd hd0 hdvd2
    omega

/-- Concrete evaluation: `find_primitive_root 3 1 = some (some 2)`. -/
theorem fpr_3_1 : find_primitive_root 3 1 = some (some 2) := by
  have h3 : is_prime 3 = true := is_prime_true_of (by norm_num)
  have hntt : is_ntt_friendly_prime 3 1 = true := by
    unfold is_ntt_friendly_prime
    rw [if_neg (by omega)]
    simp [h3]
  have hpf2 : prime_factors 2 = some [2] := by
    have h1 : strip 2 2 [] = some ([2], 1) := rfl
    have h2 : odd_fac 3 1 [2] = some ([2], 1) := odd_fac_eq_exit (by norm_num)
    unfold prime_factors
    rw [h1]
    simp only [h2]
    norm_num
  have hme : mod_exp 2 (2 / 2) 3 = 2 := by
    rw [mod_exp_eq 2 (2 / 2) 3 (by norm_num)]
    rfl
  have hgen : is_generator 2 3 = some true := by
    unfold is_generator
    rw [show (3 : Nat) - 1 = 2 from rfl, hpf2]
    show some (gen_check 2 3 2 [2]) = some true
    rw [gen_check, if_neg (by rw [hme]; norm_num), gen_check]
  unfold find_primitive_root
  rw [if_pos hntt]
  show root_scan 3 2 2 2 1 = some (some 2)
  rw [root_scan, hgen]
  show some (some (mod_exp 2 (2 / 2) 3)) = some (some 2)
  rw [hme]

/-- Witness for C3 at `q = 3`, `n = 1`, `ψ = 2`. -/
theorem claim_C3_find_primitive_root_witness :
    mod_exp 2 (2 * 1) 3 = 1 ∧
      ∀ d, d ∣ 2 * 1 → d < 2 * 1 → mod_exp 2 d 3 ≠ 1 :=
  claim_C3_find_primitive_root 3 1 2 fpr_3_1
